import Mathlib

/-!
Verification development for the secure file-access layer of the
`mcp-source-server` repository (`src/index.ts`, class `SecureFileManager`
and its `SourceCodeMCPServer` default configuration, version 0.2.x).

The TypeScript code is shallowly embedded: Node's posix `path` functions
are modelled over `List Char`, the filesystem is an association list from
absolute path strings to file contents, fallible operations return
`Except`, and the asynchronous admission counter is modelled both
sequentially (inside each operation) and as a labelled transition system
for interleaved executions.
-/

set_option autoImplicit false

deriving instance DecidableEq for Except

namespace McpFs

/-! ### Node posix path model (over `List Char`) -/

/-- Split a character list on a separator character. Mirrors
JavaScript's `s.split(sep)` for a single-character separator: always
returns at least one (possibly empty) piece. -/
def splitOnCh (sep : Char) : List Char → List (List Char)
  | [] => [[]]
  | c :: rest =>
    if c = sep then [] :: splitOnCh sep rest
    else
      match splitOnCh sep rest with
      | [] => [[c]]
      | s :: ss => (c :: s) :: ss

/-- Split a path character list on the separator `'/'`. -/
def splitSegs (p : List Char) : List (List Char) := splitOnCh '/' p

/-- Join segments with `'/'` separators (inverse of `splitSegs`). -/
def joinSegs : List (List Char) → List Char
  | [] => []
  | [s] => s
  | s :: rest => s ++ '/' :: joinSegs rest

/-- The segment-normalisation loop of Node's `path.posix.normalize` /
`path.posix.resolve` (`normalizeString`): drops empty and `.` segments,
lets `..` pop the previous segment, and keeps leading `..` segments only
when `allowAboveRoot` is true (relative paths). -/
def normSegs (allowAboveRoot : Bool) : List (List Char) → List (List Char) → List (List Char)
  | [], acc => acc.reverse
  | s :: rest, acc =>
    if s = [] ∨ s = ['.'] then normSegs allowAboveRoot rest acc
    else if s = ['.', '.'] then
      match acc with
      | [] =>
        if allowAboveRoot then normSegs allowAboveRoot rest [['.', '.']]
        else normSegs allowAboveRoot rest []
      | a :: as =>
        if a = ['.', '.'] then normSegs allowAboveRoot rest (['.', '.'] :: a :: as)
        else normSegs allowAboveRoot rest as
    else normSegs allowAboveRoot rest (s :: acc)

/-- Model of Node's posix `path.normalize` on character lists. -/
def normalizeCh (p : List Char) : List Char :=
  if p = [] then ['.']
  else
    let isAbs := p.head? = some '/'
    let hasTrail := p.getLast? = some '/'
    let body := joinSegs (normSegs (!isAbs) (splitSegs p) [])
    let body2 := if hasTrail ∧ body ≠ [] then body ++ ['/'] else body
    if isAbs then '/' :: body2
    else if body2 = [] then ['.'] else body2

/-- Model of Node's posix `path.resolve root p` for an absolute `root`
(the code always passes `normalizedAllowedDir`, which is absolute):
an absolute `p` wins, otherwise `p` is resolved against `root`; the
result is re-normalised and carries no trailing separator. -/
def resolveCh (root p : List Char) : List Char :=
  let combined := if p.head? = some '/' then p else root ++ '/' :: p
  '/' :: joinSegs (normSegs false (splitSegs combined) [])

/-- Model of Node's posix `path.basename`: the last nonempty segment. -/
def basenameCh (p : List Char) : List Char :=
  ((splitSegs p).filter (fun s => s ≠ [])).getLastD []

/-- Index of the last `'.'` in a character list, if any. -/
def lastDotIdx (b : List Char) : Option Nat :=
  (List.range b.length).foldl
    (fun acc i => if b.getD i ' ' = '.' then some i else acc) none

/-- Model of Node's posix `path.extname`: the suffix from the last dot of
the basename, empty when there is no dot or when every character before
the last dot is itself a dot (dotfiles such as `.env` have no extension). -/
def extnameCh (p : List Char) : List Char :=
  let b := basenameCh p
  match lastDotIdx b with
  | none => []
  | some i => if (b.take i).all (fun c => c = '.') then [] else b.drop i

/-- Drop the common leading segments of two segment lists. -/
def dropCommon : List (List Char) → List (List Char) → List (List Char) × List (List Char)
  | a :: as, b :: bs => if a = b then dropCommon as bs else (a :: as, b :: bs)
  | as, bs => (as, bs)

/-- Model of Node's posix `path.relative` for absolute, already-resolved
arguments (as used in `validatePath`): strip the common ancestor and
climb with `..` segments. -/
def relativeCh (fromP toP : List Char) : List Char :=
  let fs := (splitSegs fromP).filter (fun s => s ≠ [])
  let ts := (splitSegs toP).filter (fun s => s ≠ [])
  let p := dropCommon fs ts
  joinSegs (p.1.map (fun _ => ['.', '.']) ++ p.2)

/-- JavaScript `String.prototype.startsWith`. -/
def chStartsWith (s p : List Char) : Bool := p.isPrefixOf s

/-- JavaScript `String.prototype.endsWith`. -/
def chEndsWith (s p : List Char) : Bool := p.isSuffixOf s

/-- JavaScript `String.prototype.includes`: substring containment. -/
def chIncludes (s p : List Char) : Bool :=
  (List.range (s.length + 1)).any (fun i => p.isPrefixOf (s.drop i))

/-- Lower-case a character list (model of `String.prototype.toLowerCase`). -/
def toLowerStr (s : List Char) : List Char := s.map Char.toLower

/-! ### Security configuration and errors -/

/-- Embedding of the `SecurityConfig` interface. The `root` field holds
`normalizedAllowedDir`, the resolved absolute sandbox root. -/
structure Config where
  root : String
  maxFileSize : Nat
  maxConcurrentOperations : Nat
  allowedExtensions : List String
  blacklistedPaths : List String
deriving Repr

/-- The distinguishable error kinds thrown by `SecureFileManager`
(each `throw new Error(...)` site is mapped to a constructor). -/
inductive FMError where
  | outsideRoot
  | blacklisted
  | extensionNotAllowed (ext : String)
  | tooManyOps
  | notFound
  | alreadyExists
  | sizeExceeded
  | noMatch
  | ambiguousMatch
  | ioFailure (msg : String)
deriving Repr, DecidableEq

/-- Embedding of `SecureFileManager.isFileExtensionAllowed`: an empty
allow-list admits everything, otherwise the lower-cased extension of the
file name must be a member. -/
def isFileExtensionAllowed (cfg : Config) (fileName : String) : Bool :=
  if cfg.allowedExtensions.isEmpty then true
  else cfg.allowedExtensions.contains (String.mk (toLowerStr (extnameCh fileName.data)))

/-- Embedding of `SecureFileManager.isPathBlacklisted`: the `.env.`
entry matches file names starting with `.env.` except the
`.template` / `.example` / `.sample` suffixes; every other entry is a
plain substring test on the relative path. -/
def isPathBlacklisted (cfg : Config) (relativePath : String) : Bool :=
  let fileName := basenameCh relativePath.data
  cfg.blacklistedPaths.any (fun b =>
    if b = ".env." then
      chStartsWith fileName (".env.").data &&
        !(chEndsWith fileName (".template").data) &&
        !(chEndsWith fileName (".example").data) &&
        !(chEndsWith fileName (".sample").data)
    else
      chIncludes relativePath.data b.data)

/-- Embedding of `SecureFileManager.validatePath`: normalise, resolve
against the root, require containment, then apply blacklist (skipped for
the root itself) and, for file operations, the extension allow-list. -/
def validatePath (cfg : Config) (filePath : String) (isFileOperation : Bool) :
    Except FMError String :=
  let normalizedPath := normalizeCh filePath.data
  let resolvedPath := resolveCh cfg.root.data normalizedPath
  if !(chStartsWith resolvedPath (cfg.root.data ++ ['/']) || resolvedPath == cfg.root.data) then
    .error .outsideRoot
  else if (filePath != "" && filePath != ".") &&
      isPathBlacklisted cfg (String.mk (relativeCh cfg.root.data resolvedPath)) then
    .error .blacklisted
  else if isFileOperation && !(isFileExtensionAllowed cfg (String.mk (basenameCh resolvedPath))) then
    .error (.extensionNotAllowed
      (String.mk (toLowerStr (extnameCh (basenameCh resolvedPath)))))
  else
    .ok (String.mk resolvedPath)

/-- The default `allowedExtensions` list of `SourceCodeMCPServer`'s
constructor (version 0.2.x), including the explicit empty string for
extensionless files. -/
def defaultExtensions : List String :=
  [".js", ".ts", ".jsx", ".tsx", ".py", ".cpp", ".cc", ".cxx", ".c", ".h", ".hpp",
   ".java", ".cs", ".php", ".rb", ".go", ".rs", ".swift", ".kt", ".scala",
   ".html", ".css", ".scss", ".less", ".json", ".xml", ".yaml", ".yml",
   ".md", ".txt", ".rst", ".adoc",
   ".sh", ".bat", ".ps1", ".sql", ".r", ".matlab", ".pl",
   ".template", ".example", ".sample", ".config",
   ""]

/-- The default `blacklistedPaths` list of `SourceCodeMCPServer`'s
constructor (version 0.2.x). -/
def defaultBlacklist : List String :=
  ["..", ".git/", "node_modules/", ".env.", "secrets/", ".DS_Store", "Thumbs.db"]

/-- The default security configuration built by `SourceCodeMCPServer`,
parameterised by the resolved workspace root. -/
def defaultConfig (root : String) : Config :=
  { root := root
    maxFileSize := 10 * 1024 * 1024
    maxConcurrentOperations := 10
    allowedExtensions := defaultExtensions
    blacklistedPaths := defaultBlacklist }

/-! ### Filesystem model and string search primitives -/

/-- UTF-8 byte length of a string (model of `Buffer.byteLength(s, 'utf-8')`
and of the on-disk size of a file written with encoding `utf-8`). -/
def utf8Len (s : String) : Nat := s.utf8ByteSize

/-- Scan the suffixes of `s`, labelled `i, i + 1, ...`, for the first one
that `t` starts: the position of the first occurrence of `t` at
label `≥ i`. The final empty suffix is scanned too, so the empty needle
is found at the end of the string. -/
def idxOfAux (t : List Char) : List Char → Nat → Option Nat
  | [], i => if t = [] then some i else none
  | c :: s, i => if t.isPrefixOf (c :: s) then some i else idxOfAux t s (i + 1)

/-- JavaScript `String.prototype.indexOf(t, fromIdx)`: the start index is
clamped to the string length; the empty needle is found at the clamped
start index itself. -/
def jsIndexOfFrom (s t : List Char) (fromIdx : Nat) : Option Nat :=
  idxOfAux t (s.drop (min fromIdx s.length)) (min fromIdx s.length)

/-- JavaScript `String.prototype.indexOf(t)`. -/
def jsIndexOf (s t : List Char) : Option Nat :=
  idxOfAux t s 0

/-- The replacement `s.substring(0, i) + repl + s.substring(i + len)`
performed by `partialWriteFile`. -/
def replaceRange (s : List Char) (i len : Nat) (repl : List Char) : List Char :=
  s.take i ++ repl ++ s.drop (i + len)

/-- The filesystem: an association list from absolute path strings to
file contents, with the most recent write listed first. -/
abbrev FS := List (String × String)

/-- Content of the file at `p`, if present. -/
def fsRead (fs : FS) (p : String) : Option String :=
  (fs.find? (fun e => e.1 == p)).map (fun e => e.2)

/-- Overwrite (or create) the file at `p` with content `c`. -/
def fsWrite (fs : FS) (p c : String) : FS := (p, c) :: fs

/-- Unlink the file at `p`. -/
def fsRemove (fs : FS) (p : String) : FS := fs.filter (fun e => e.1 != p)

/-- Whether a file exists at `p` (model of `fs.access(p, F_OK)`). -/
def fsExists (fs : FS) (p : String) : Bool := (fsRead fs p).isSome

/-- State of a `SecureFileManager`: the filesystem together with the
`activeOperations` counter. -/
structure SFMState where
  fs : FS
  active : Nat
deriving Repr, DecidableEq

/-- The backup destination built by `createBackup`:
`<root>/.backups/<basename>.<timestamp>.backup` (flat namespace). -/
def backupPath (cfg : Config) (ts : String) (filePath : String) : String :=
  String.mk (cfg.root.data ++ ("/.backups/").data ++ basenameCh filePath.data
    ++ ('.' :: ts.data) ++ (".backup").data)

/-- Embedding of `SecureFileManager.createBackup`. The timestamp `ts`
and the success of the underlying `fs.copyFile` call (`copyOk`) are
oracle inputs of the model; `fs.mkdir` with `recursive: true` cannot
fail, and `copyFile` also fails when the source file is absent. -/
def createBackup (cfg : Config) (fs : FS) (ts : String) (copyOk : Bool) (filePath : String) :
    Except FMError FS :=
  if !copyOk then .error (.ioFailure "copyFile")
  else
    match fsRead fs filePath with
    | none => .error (.ioFailure "copyFile ENOENT")
    | some c => .ok (fsWrite fs (backupPath cfg ts filePath) c)

/-- Embedding of `SecureFileManager.readFile`, executed sequentially:
the admission counter is checked and incremented on entry and
decremented in the `finally`, so the returned state carries the
caller's counter value. -/
def readFile (cfg : Config) (st : SFMState) (filePath : String) :
    SFMState × Except FMError String :=
  if st.active ≥ cfg.maxConcurrentOperations then (st, .error .tooManyOps)
  else
    match validatePath cfg filePath true with
    | .error e => (st, .error e)
    | .ok safePath =>
      match fsRead st.fs safePath with
      | none => (st, .error .notFound)
      | some content =>
        if utf8Len content > cfg.maxFileSize then (st, .error .sizeExceeded)
        else (st, .ok content)

/-- Embedding of `SecureFileManager.writeFile`. Note the faithful
translation of the backup block: the `try/catch` around
`fs.access` + `createBackup` swallows every error (its comment reads
"File doesn't exist, no need to backup"), so a failed backup copy does
not stop the write. -/
def writeFile (cfg : Config) (st : SFMState) (ts : String) (copyOk : Bool)
    (filePath content : String) (mkBackup : Bool) : SFMState × Except FMError Unit :=
  if st.active ≥ cfg.maxConcurrentOperations then (st, .error .tooManyOps)
  else
    match validatePath cfg filePath true with
    | .error e => (st, .error e)
    | .ok safePath =>
      if utf8Len content > cfg.maxFileSize then (st, .error .sizeExceeded)
      else
        let fs1 :=
          if mkBackup then
            match
              (if fsExists st.fs safePath then createBackup cfg st.fs ts copyOk safePath
               else .error (.ioFailure "access ENOENT")) with
            | .ok fs2 => fs2
            | .error _ => st.fs
          else st.fs
        ({ st with fs := fsWrite fs1 safePath content }, .ok ())

/-- Embedding of `SecureFileManager.partialWriteFile`: read the current
content, locate the first occurrence of `oldContent`, reject a second
occurrence found from `oldIndex + 1`, size-check the replacement, then
unconditionally back up and write. -/
def partialWriteFile (cfg : Config) (st : SFMState) (ts : String) (copyOk : Bool)
    (filePath oldContent newContent : String) : SFMState × Except FMError Unit :=
  if st.active ≥ cfg.maxConcurrentOperations then (st, .error .tooManyOps)
  else
    match validatePath cfg filePath true with
    | .error e => (st, .error e)
    | .ok safePath =>
      match fsRead st.fs safePath with
      | none => (st, .error (.ioFailure "read ENOENT"))
      | some currentContent =>
        match jsIndexOf currentContent.data oldContent.data with
        | none => (st, .error .noMatch)
        | some oldIndex =>
          match jsIndexOfFrom currentContent.data oldContent.data (oldIndex + 1) with
          | some _ => (st, .error .ambiguousMatch)
          | none =>
            let updated := String.mk
              (replaceRange currentContent.data oldIndex oldContent.data.length newContent.data)
            if utf8Len updated > cfg.maxFileSize then (st, .error .sizeExceeded)
            else
              match createBackup cfg st.fs ts copyOk safePath with
              | .error e => (st, .error e)
              | .ok fs2 => ({ st with fs := fsWrite fs2 safePath updated }, .ok ())

/-- Embedding of `SecureFileManager.deleteFile`: existence check, then
backup (whose failure propagates and aborts the unlink), then unlink. -/
def deleteFile (cfg : Config) (st : SFMState) (ts : String) (copyOk : Bool)
    (filePath : String) (mkBackup : Bool) : SFMState × Except FMError Unit :=
  if st.active ≥ cfg.maxConcurrentOperations then (st, .error .tooManyOps)
  else
    match validatePath cfg filePath true with
    | .error e => (st, .error e)
    | .ok safePath =>
      if !(fsExists st.fs safePath) then (st, .error .notFound)
      else if mkBackup then
        match createBackup cfg st.fs ts copyOk safePath with
        | .error e => (st, .error e)
        | .ok fs2 => ({ st with fs := fsRemove fs2 safePath }, .ok ())
      else ({ st with fs := fsRemove st.fs safePath }, .ok ())

/-- Embedding of `SecureFileManager.renameFile`: validate both paths,
require the source present and the destination absent, back up the
source (failure propagates), then move. -/
def renameFile (cfg : Config) (st : SFMState) (ts : String) (copyOk : Bool)
    (oldPath newPath : String) (mkBackup : Bool) : SFMState × Except FMError Unit :=
  if st.active ≥ cfg.maxConcurrentOperations then (st, .error .tooManyOps)
  else
    match validatePath cfg oldPath true with
    | .error e => (st, .error e)
    | .ok safeOldPath =>
      match validatePath cfg newPath true with
      | .error e => (st, .error e)
      | .ok safeNewPath =>
        if !(fsExists st.fs safeOldPath) then (st, .error .notFound)
        else if fsExists st.fs safeNewPath then (st, .error .alreadyExists)
        else
          let moved : FS → FS := fun fs2 =>
            match fsRead st.fs safeOldPath with
            | some c => fsRemove (fsWrite fs2 safeNewPath c) safeOldPath
            | none => fs2
          if mkBackup then
            match createBackup cfg st.fs ts copyOk safeOldPath with
            | .error e => (st, .error e)
            | .ok fs2 => ({ st with fs := moved fs2 }, .ok ())
          else ({ st with fs := moved st.fs }, .ok ())

/-- The running-total loop of `streamWriteFile`'s monitor stream: chunks
are appended until the cumulative byte count would exceed the limit;
the boolean records whether the whole stream fit. -/
def streamAccum (maxFileSize : Nat) : List String → List Char → Nat → List Char × Bool
  | [], acc, _ => (acc, true)
  | c :: cs, acc, total =>
    if maxFileSize < total + utf8Len c then (acc, false)
    else streamAccum maxFileSize cs (acc ++ c.data) (total + utf8Len c)

/-- Embedding of `SecureFileManager.streamWriteFile`: the write stream
truncates the target immediately, so on overflow the file is left with
the partial content written before the failing chunk. -/
def streamWriteFile (cfg : Config) (st : SFMState) (filePath : String) (chunks : List String) :
    SFMState × Except FMError Unit :=
  if st.active ≥ cfg.maxConcurrentOperations then (st, .error .tooManyOps)
  else
    match validatePath cfg filePath true with
    | .error e => (st, .error e)
    | .ok safePath =>
      let r := streamAccum cfg.maxFileSize chunks [] 0
      ({ st with fs := fsWrite st.fs safePath (String.mk r.1) },
       if r.2 then .ok () else .error .sizeExceeded)

/-- Number of start positions at which `t` occurs as a contiguous
substring of `s` (overlapping occurrences are counted separately; the
empty fragment occurs at every one of the `s.length + 1` positions). -/
def countOccurrences (s t : List Char) : Nat :=
  ((List.range (s.length + 1)).filter (fun i => t.isPrefixOf (s.drop i))).length

/-! ### Text search: literal pattern matching and the directory walker -/

/-- The regular-expression metacharacters escaped by the pattern
preprocessing in `searchInFile`: the character class of
`pattern.replace(/[.*+?^$\x7b\x7d()|[\]\\]/g, '\\$&')`. -/
def metaChars : List Char :=
  ['.', '*', '+', '?', '^', '$', '\x7b', '\x7d', '(', ')', '|', '[', ']', '\\']

/-- Embedding of the escaping step: every metacharacter is replaced by a
backslash followed by itself. -/
def escapeRegExp (p : List Char) : List Char :=
  p.flatMap (fun c => if c ∈ metaChars then ['\\', c] else [c])

/-- Parser for the fragment of regular expressions that a fully escaped
pattern can denote: a sequence of literal atoms, where a backslash
escapes the following character. An unescaped metacharacter would be
regex syntax rather than a literal and is rejected with `none`. -/
def parseAtoms : List Char → Option (List Char)
  | [] => some []
  | c :: rest =>
    if c = '\\' then
      match rest with
      | [] => none
      | d :: rest2 => (parseAtoms rest2).map (fun as => d :: as)
    else if c ∈ metaChars then none
    else (parseAtoms rest).map (fun as => c :: as)

/-- Character comparison used in matching: exact, or modulo `toLower`
when `ignoreCase` is set (model of the regex `i` flag). -/
def chEq (ignoreCase : Bool) (a b : Char) : Bool :=
  if ignoreCase then a.toLower == b.toLower else a == b

/-- A literal atom sequence matches at the head of `s`. -/
def atomsMatchHere (ignoreCase : Bool) : List Char → List Char → Bool
  | [], _ => true
  | _ :: _, [] => false
  | a :: as, c :: cs => chEq ignoreCase a c && atomsMatchHere ignoreCase as cs

/-- Unanchored search for a literal atom sequence: the semantics of
`RegExp.prototype.test` for a pattern consisting of literal atoms. -/
def atomsSearch (ignoreCase : Bool) (atoms s : List Char) : Bool :=
  (List.range (s.length + 1)).any (fun i => atomsMatchHere ignoreCase atoms (s.drop i))

/-- Model of `searchPattern.test(line)` where `searchPattern` is the
`RegExp` built from the escaped `pattern` (the parse of an escaped
pattern never fails, see below; a failure is mapped to `false`). -/
def regexTestEscaped (pattern : String) (ignoreCase : Bool) (line : String) : Bool :=
  match parseAtoms (escapeRegExp pattern.data) with
  | some atoms => atomsSearch ignoreCase atoms line.data
  | none => false

/-- JavaScript `content.split('\n')` on character lists. -/
def splitLines (content : List Char) : List (List Char) := splitOnCh '\n' content

/-- Context block of a search match. -/
structure MatchContext where
  before : List String
  after : List String
deriving Repr, DecidableEq

/-- One match produced by `searchInFile`. -/
structure SearchMatch where
  lineNumber : Nat
  line : String
  context : Option MatchContext
deriving Repr, DecidableEq

/-- Per-file result produced by the walker. -/
structure FileResult where
  file : String
  matchList : List SearchMatch
deriving Repr, DecidableEq

/-- The match record that `searchInFile` assembles for (0-based) line
`i`: the 1-based line number, the line, and, when `contextLines > 0`,
the preceding and following `contextLines` lines clipped to the file. -/
def mkSearchMatch (lines : List String) (contextLines i : Nat) : SearchMatch :=
  { lineNumber := i + 1
    line := lines.getD i ""
    context :=
      if 0 < contextLines then
        some { before := (lines.take i).drop (i - contextLines)
               after := (lines.drop (i + 1)).take
                 (min (lines.length - 1) (i + contextLines) + 1 - (i + 1)) }
      else none }

/-- Embedding of the line-scanning loop of `searchInFile` proper. -/
def searchInFile (pattern : String) (ignoreCase : Bool) (contextLines : Nat) (content : String) :
    List SearchMatch :=
  let lines := (splitLines content.data).map String.mk
  (List.range lines.length).filterMap (fun i =>
    if regexTestEscaped pattern ignoreCase (lines.getD i "") then
      some (mkSearchMatch lines contextLines i)
    else none)

/-- A directory entry as reported by `fs.readdir` with `withFileTypes`. -/
structure DirEntry where
  name : String
  isFile : Bool
  isDir : Bool
deriving Repr, DecidableEq

/-- Oracle view of the filesystem used by the directory walker:
`realpath` resolves a directory to its canonical, symlink-free form
(`none` models a failure), `readdir` enumerates a directory (`none`
models a failure), `statSize` gives a file's on-disk size and `readf`
its content (`none` models a read failure, which the `catch` inside
`searchInFile` turns into an empty match list). Symlink cycles are
represented by distinct directory paths sharing a canonical form. -/
structure WalkEnv where
  realpath : String → Option String
  readdir : String → Option (List DirEntry)
  statSize : String → Option Nat
  readf : String → Option String

/-- The per-file branch of the walker loop body: extension and
blacklist filters, the size gate, then the content scan; only files
with at least one match produce a result. -/
def searchFileEntry (cfg : Config) (env : WalkEnv) (pattern : String)
    (ignoreCase : Bool) (contextLines : Nat) (fullPath relativePath name : String) :
    Option FileResult :=
  if !(isFileExtensionAllowed cfg name) || isPathBlacklisted cfg relativePath then none
  else
    match env.statSize fullPath with
    | none => none
    | some size =>
      if size > cfg.maxFileSize then none
      else
        let ms := match env.readf fullPath with
          | none => []
          | some content => searchInFile pattern ignoreCase contextLines content
        if ms.isEmpty then none else some { file := relativePath, matchList := ms }

/-- One pass over the entries of a popped directory, in order: collect
the file results and the subdirectories to enqueue (only when
`recursive`, and skipping blacklisted and hidden directories). -/
def processEntries (cfg : Config) (env : WalkEnv) (pattern : String)
    (ignoreCase : Bool) (contextLines : Nat) (recursive : Bool) (currentDir : String) :
    List DirEntry → List FileResult × List String
  | [] => ([], [])
  | e :: es =>
    let rest := processEntries cfg env pattern ignoreCase contextLines recursive currentDir es
    let fullPath := String.mk (currentDir.data ++ '/' :: e.name.data)
    let relativePath := String.mk (relativeCh cfg.root.data fullPath.data)
    if e.isFile then
      match searchFileEntry cfg env pattern ignoreCase contextLines fullPath relativePath e.name with
      | some r => (r :: rest.1, rest.2)
      | none => rest
    else if e.isDir && recursive then
      if isPathBlacklisted cfg relativePath ||
          (chStartsWith e.name.data ['.'] && e.name != ".." && e.name != ".") then rest
      else (rest.1, fullPath :: rest.2)
    else rest

/-- The hard cap on processed directories (`maxDirectories` in
`searchInDirectorySafe`). -/
def maxDirectories : Nat := 1000

/-- The queue-based traversal loop of `searchInDirectorySafe`. `fuel` is
the remaining budget of the `processedCount < maxDirectories` guard (one
unit per popped directory, hence structural termination, mirroring the
loop's unconditional bound); `visited` is the set of canonical directory
paths already processed; `enumerated` is a ghost log recording the
canonical form of every directory whose entries the loop enumerates. -/
def searchLoop (cfg : Config) (env : WalkEnv) (pattern : String)
    (ignoreCase : Bool) (contextLines : Nat) (recursive : Bool) :
    Nat → List String → List String → List FileResult → List String →
    List FileResult × List String
  | 0, _, _, results, enumerated => (results, enumerated)
  | _ + 1, [], _, results, enumerated => (results, enumerated)
  | fuel + 1, currentDir :: queue, visited, results, enumerated =>
    match env.realpath currentDir with
    | none =>
      searchLoop cfg env pattern ignoreCase contextLines recursive
        fuel queue visited results enumerated
    | some rp =>
      if rp ∈ visited then
        searchLoop cfg env pattern ignoreCase contextLines recursive
          fuel queue visited results enumerated
      else
        match env.readdir currentDir with
        | none =>
          searchLoop cfg env pattern ignoreCase contextLines recursive
            fuel queue (rp :: visited) results enumerated
        | some entries =>
          let pr := processEntries cfg env pattern ignoreCase contextLines recursive
            currentDir entries
          searchLoop cfg env pattern ignoreCase contextLines recursive
            fuel (queue ++ pr.2) (rp :: visited) (results ++ pr.1) (enumerated ++ [rp])

/-- Embedding of `SecureFileManager.searchInFiles`: validate the search
root (the workspace root is used directly for an empty or `"."`
directory), then run the bounded traversal seeded with it. -/
def searchInFiles (cfg : Config) (env : WalkEnv) (pattern : String) (searchDir : String)
    (recursive ignoreCase : Bool) (contextLines : Nat) :
    Except FMError (List FileResult) :=
  if searchDir == "" || searchDir == "." then
    .ok (searchLoop cfg env pattern ignoreCase contextLines recursive
      maxDirectories [cfg.root] [] [] []).1
  else
    match validatePath cfg searchDir false with
    | .error e => .error e
    | .ok searchPath =>
      .ok (searchLoop cfg env pattern ignoreCase contextLines recursive
        maxDirectories [searchPath] [] [] []).1

/-! ### Admission gate transition system -/

/-- A state of the admission gate: the JavaScript `activeOperations`
counter (a signed number, so that nonnegativity is a real claim)
together with the ghost count of admitted operations whose `finally`
decrement is still pending. -/
structure GateState where
  active : Int
  pending : Nat
deriving Repr, DecidableEq

/-- Atomic transitions of the admission gate. `enter` models the
synchronous check-then-increment prologue shared by every gated
operation (no `await` separates the check from the increment); `deny`
models the fail-fast rejection when the counter is at the maximum;
`finish` models the `finally` decrement of an admitted operation,
on success and failure paths alike. -/
inductive GateStep (maxOps : Nat) : GateState → GateState → Prop
  | enter (s : GateState) : s.active < (maxOps : Int) →
      GateStep maxOps s ⟨s.active + 1, s.pending + 1⟩
  | deny (s : GateState) : s.active ≥ (maxOps : Int) → GateStep maxOps s s
  | finish (s : GateState) : 0 < s.pending →
      GateStep maxOps s ⟨s.active - 1, s.pending - 1⟩

/-- Gate states reachable from the initial state (counter `0`, nothing
in flight) by any interleaving of operations. -/
def gateReachable (maxOps : Nat) (s : GateState) : Prop :=
  Relation.ReflTransGen (GateStep maxOps) ⟨0, 0⟩ s

/-! ### Spec-side predicates (formulations used by the claims) -/

/-- Spec-side containment: the resolved path equals the root, or the
root followed by the path separator is a strict prefix of it. -/
def InsideRoot (root resolved : List Char) : Prop :=
  resolved = root ∨ ((root ++ ['/']) <+: resolved ∧ root ++ ['/'] ≠ resolved)

/-- Case folding used for case-insensitive comparison. -/
def foldCase (ignoreCase : Bool) (c : Char) : Char :=
  if ignoreCase then c.toLower else c

/-- Spec-side literal-substring occurrence: the pattern occurs in the
line as a contiguous substring, compared case-insensitively when
`ignoreCase` is set. -/
def LiteralSubstring (ignoreCase : Bool) (pat line : List Char) : Prop :=
  pat.map (foldCase ignoreCase) <:+: line.map (foldCase ignoreCase)

/-- A well-formed sandbox root, as `path.resolve(path.normalize(dir))`
produces it: absolute, not the bare `/`, without a trailing separator
and without empty, `.` or `..` segments. -/
def isNormalRoot (r : String) : Bool :=
  (r.data.head? == some '/') && (r.data.tail != []) &&
    (splitOnCh '/' r.data.tail).all (fun s => s != [] && s != ['.'] && s != ['.', '.'])

/-! ### Shared concrete instances for witnesses -/

/-- A small concrete configuration used by witnesses: sandbox root
`/ws`, a 100-byte size limit, two admission slots, no extension
restriction, no blacklist. -/
def exCfg : Config :=
  { root := "/ws", maxFileSize := 100, maxConcurrentOperations := 2,
    allowedExtensions := [], blacklistedPaths := [] }

/-- A small concrete state used by witnesses: one file `a.txt` under
the root, no operation in flight. -/
def exSt : SFMState := { fs := [("/ws/a.txt", "hello world")], active := 0 }

/-! ### Theorems -/

/-- No piece produced by splitting on a separator contains it. -/
theorem splitOnCh_sep_not_mem (sep : Char) (l : List Char) :
    ∀ x ∈ splitOnCh sep l, sep ∉ x := by
  induction l with
  | nil =>
    intro x hx
    rw [splitOnCh, List.mem_singleton] at hx
    simp [hx]
  | cons c rest ih =>
    intro x hx
    rw [splitOnCh] at hx
    split at hx
    · rcases List.mem_cons.mp hx with rfl | hx
      · simp
      · exact ih x hx
    case isFalse hc =>
      split at hx
      case h_1 heq =>
        rw [List.mem_singleton] at hx
        subst hx
        simpa using Ne.symm hc
      case h_2 s ss heq =>
        rcases List.mem_cons.mp hx with rfl | hx
        · have hs : sep ∉ s := ih s (heq ▸ List.mem_cons_self s ss)
          intro hmem
          rcases List.mem_cons.mp hmem with rfl | hmem
          · exact hc rfl
          · exact hs hmem
        · exact ih x (heq ▸ List.mem_cons_of_mem s hx)

/-- Every segment emitted by the normalisation loop is nonempty and
separator-free, provided the input segments are separator-free. -/
theorem normSegs_wf (b : Bool) :
    ∀ (segs acc : List (List Char)),
      (∀ x ∈ segs, '/' ∉ x) → (∀ x ∈ acc, x ≠ [] ∧ '/' ∉ x) →
      ∀ x ∈ normSegs b segs acc, x ≠ [] ∧ '/' ∉ x := by
  intro segs
  induction segs with
  | nil =>
    intro acc _h1 h2 x hx
    simp only [normSegs] at hx
    exact h2 x (List.mem_reverse.mp hx)
  | cons s rest ih =>
    intro acc h1 h2 x hx
    have h1' : ∀ y ∈ rest, '/' ∉ y := fun y hy => h1 y (List.mem_cons_of_mem s hy)
    rw [normSegs.eq_def] at hx
    dsimp only at hx
    by_cases hse : s = [] ∨ s = ['.']
    · rw [if_pos hse] at hx
      exact ih acc h1' h2 x hx
    rw [if_neg hse] at hx
    by_cases hdd : s = ['.', '.']
    · rw [if_pos hdd] at hx
      cases acc with
      | nil =>
        dsimp only at hx
        split at hx
        · refine ih _ h1' ?_ x hx
          intro y hy
          rw [List.mem_singleton] at hy
          subst hy
          exact ⟨by simp, by simp⟩
        · exact ih _ h1' (by simp) x hx
      | cons a as =>
        dsimp only at hx
        split at hx
        · refine ih _ h1' ?_ x hx
          intro y hy
          rcases List.mem_cons.mp hy with rfl | hy
          · exact ⟨by simp, by simp⟩
          · exact h2 y hy
        · exact ih _ h1' (fun y hy => h2 y (List.mem_cons_of_mem a hy)) x hx
    · rw [if_neg hdd] at hx
      refine ih _ h1' ?_ x hx
      intro y hy
      rcases List.mem_cons.mp hy with rfl | hy
      · exact ⟨fun h => hse (Or.inl h), h1 _ (List.mem_cons_self _ rest)⟩
      · exact h2 y hy

/-- Joining a nonempty list of nonempty segments gives a nonempty path. -/
theorem joinSegs_ne_nil (s : List Char) (rest : List (List Char)) (hs : s ≠ []) :
    joinSegs (s :: rest) ≠ [] := by
  match rest with
  | [] => simpa [joinSegs] using hs
  | t :: ts => simp [joinSegs]

/-- The join of nonempty, separator-free segments never ends with the
separator. -/
theorem joinSegs_no_trailing_sep :
    ∀ (segs : List (List Char)), (∀ x ∈ segs, x ≠ [] ∧ '/' ∉ x) →
      ∀ l, joinSegs segs ≠ l ++ ['/'] := by
  intro segs
  induction segs with
  | nil =>
    intro _ l h
    rw [joinSegs] at h
    exact absurd h.symm (by simp)
  | cons s rest ih =>
    intro hwf l heq
    cases rest with
    | nil =>
      have hs := hwf s (List.mem_singleton.mpr rfl)
      rw [joinSegs] at heq
      exact hs.2 (heq ▸ (by simp : '/' ∈ l ++ ['/']))
    | cons t ts =>
      rw [show joinSegs (s :: t :: ts) = s ++ '/' :: joinSegs (t :: ts) from rfl] at heq
      have hJ : joinSegs (t :: ts) ≠ [] :=
        joinSegs_ne_nil t ts (hwf t (List.mem_cons_of_mem s (List.mem_cons_self t ts))).1
      have hrev := congrArg List.reverse heq
      rw [List.reverse_append, List.reverse_cons, List.reverse_append] at hrev
      cases hJrev : (joinSegs (t :: ts)).reverse with
      | nil => exact hJ (List.reverse_eq_nil_iff.mp hJrev)
      | cons r rs =>
        rw [hJrev] at hrev
        simp only [List.cons_append, List.reverse_cons, List.append_nil] at hrev
        have hr : r = '/' := by
          have := congrArg List.head? hrev
          simpa using this
        have hJeq : joinSegs (t :: ts) = rs.reverse ++ ['/'] := by
          have : joinSegs (t :: ts) = (r :: rs).reverse := by
            rw [← hJrev, List.reverse_reverse]
          rw [this, List.reverse_cons, hr]
        exact ih (fun y hy => hwf y (List.mem_cons_of_mem s hy)) rs.reverse hJeq

/-- The resolved path never equals the root followed by a separator
(for a nonempty root): `resolveCh` output carries no trailing slash. -/
theorem sep_append_ne_resolveCh (root p : List Char) (hroot : root ≠ []) :
    root ++ ['/'] ≠ resolveCh root p := by
  intro heq
  match root, hroot with
  | c :: tl, _ =>
    rw [resolveCh] at heq
    rw [List.cons_append] at heq
    injection heq with _hc htl
    exact joinSegs_no_trailing_sep _
      (normSegs_wf false _ [] (splitOnCh_sep_not_mem '/' _) (by simp)) tl htl.symm

/-- C1: `validatePath` fails with the outside-root error exactly when
the normalised input resolved against the root is neither the root
itself nor strictly inside it (root plus separator a strict prefix);
whenever the resolved path is the root or strictly inside it, the
containment check passes (any failure is a different error kind). -/
theorem validatePath_outside_root_iff (cfg : Config) (filePath : String)
    (isFileOperation : Bool) (hroot : cfg.root ≠ "") :
    validatePath cfg filePath isFileOperation = .error .outsideRoot ↔
      ¬ InsideRoot cfg.root.data (resolveCh cfg.root.data (normalizeCh filePath.data)) := by
  have hrootd : cfg.root.data ≠ [] := by
    intro h
    apply hroot
    have hmk : cfg.root = String.mk cfg.root.data := rfl
    rw [hmk, h]
  have hne : cfg.root.data ++ ['/'] ≠ resolveCh cfg.root.data (normalizeCh filePath.data) :=
    sep_append_ne_resolveCh _ _ hrootd
  dsimp only [validatePath]
  set r := resolveCh cfg.root.data (normalizeCh filePath.data) with hr
  by_cases hc : (chStartsWith r (cfg.root.data ++ ['/']) || r == cfg.root.data) = true
  · rw [hc]
    simp only [Bool.not_true, Bool.false_eq_true, if_false]
    constructor
    · intro h
      exfalso
      split at h
      · exact FMError.noConfusion (Except.error.inj h)
      · split at h
        · exact FMError.noConfusion (Except.error.inj h)
        · exact Except.noConfusion h
    · intro hn
      exfalso
      apply hn
      rw [Bool.or_eq_true] at hc
      rcases hc with h1 | h1
      · exact Or.inr ⟨List.isPrefixOf_iff_prefix.mp h1, hne⟩
      · exact Or.inl (by exact_mod_cast (beq_iff_eq.mp h1))
  · rw [Bool.not_eq_true] at hc
    rw [hc]
    simp only [Bool.not_false, if_true]
    constructor
    · intro _ hin
      rcases hin with hin | ⟨hpre, _⟩
      · rw [Bool.or_eq_false_iff] at hc
        exact absurd (beq_iff_eq.mpr hin) (by simp [hc.2])
      · rw [Bool.or_eq_false_iff] at hc
        have : chStartsWith r (cfg.root.data ++ ['/']) = true :=
          List.isPrefixOf_iff_prefix.mpr hpre
        simp [hc.1] at this
    · intro _
      trivial

/-- Witness for C1 at a concrete configuration and a traversal path. -/
theorem validatePath_outside_root_iff_witness :
    validatePath exCfg "../etc/passwd" true = .error .outsideRoot ↔
      ¬ InsideRoot exCfg.root.data
        (resolveCh exCfg.root.data (normalizeCh ("../etc/passwd").data)) :=
  validatePath_outside_root_iff exCfg "../etc/passwd" true (by decide)

/-- C10: when the configured allowed-extension set is empty,
`validatePath` never fails with the extension error, for any path and
operation kind: the empty set admits every file rather than denying
all of them. -/
theorem validatePath_empty_extensions_never_extension_error
    (cfg : Config) (filePath : String) (isFileOperation : Bool)
    (hempty : cfg.allowedExtensions = []) (ext : String) :
    validatePath cfg filePath isFileOperation ≠ .error (.extensionNotAllowed ext) := by
  unfold validatePath
  simp only [isFileExtensionAllowed, hempty, List.isEmpty_nil, if_true,
    Bool.not_true, Bool.and_false, Bool.false_eq_true, if_false]
  split
  · simp
  · split
    · simp
    · simp

/-- Witness for C10 at a concrete configuration and path. -/
theorem validatePath_empty_extensions_never_extension_error_witness :
    validatePath exCfg "a.bin" true ≠ .error (.extensionNotAllowed ".bin") :=
  validatePath_empty_extensions_never_extension_error exCfg "a.bin" true rfl ".bin"

/-- C5: a write whose content strictly exceeds the size limit fails
with the size error and leaves the whole state (files, backups,
counter) unchanged, whenever the path validates and an admission slot
is available. -/
theorem writeFile_size_exceeded_no_mutation
    (cfg : Config) (st : SFMState) (ts : String) (copyOk : Bool)
    (filePath content : String) (mkBackup : Bool) (safePath : String)
    (hgate : st.active < cfg.maxConcurrentOperations)
    (hvalid : validatePath cfg filePath true = .ok safePath)
    (hsize : cfg.maxFileSize < utf8Len content) :
    writeFile cfg st ts copyOk filePath content mkBackup = (st, .error .sizeExceeded) := by
  unfold writeFile
  rw [if_neg (by omega), hvalid]
  simp only []
  rw [if_pos (by omega)]

/-- Witness for C5: a 101-byte content against the 100-byte limit. -/
theorem writeFile_size_exceeded_no_mutation_witness :
    writeFile exCfg exSt "T" true "b.txt" (String.mk (List.replicate 101 'x')) false
      = (exSt, .error .sizeExceeded) :=
  writeFile_size_exceeded_no_mutation exCfg exSt "T" true "b.txt"
    (String.mk (List.replicate 101 'x')) false "/ws/b.txt"
    (by decide) (by decide) (by decide)

/-- Reading the file just written returns the written content. -/
theorem fsRead_fsWrite_self (fs : FS) (p c : String) :
    fsRead (fsWrite fs p c) p = some c := by
  simp [fsRead, fsWrite, List.find?]

/-- C8: a successful write followed by a read of the same path (no
intervening mutation) returns exactly the written content, and leaves
the state as the write left it. -/
theorem write_then_read_roundtrip
    (cfg : Config) (st st' : SFMState) (ts : String) (copyOk : Bool)
    (filePath content : String) (mkBackup : Bool)
    (hw : writeFile cfg st ts copyOk filePath content mkBackup = (st', .ok ())) :
    readFile cfg st' filePath = (st', .ok content) := by
  unfold writeFile at hw
  split at hw
  · exact absurd (congrArg Prod.snd hw) (by simp)
  case isFalse hgate =>
    cases hval : validatePath cfg filePath true with
    | error e => rw [hval] at hw; exact absurd (congrArg Prod.snd hw) (by simp)
    | ok safePath =>
      rw [hval] at hw
      simp only [] at hw
      split at hw
      · exact absurd (congrArg Prod.snd hw) (by simp)
      case isFalse hsize =>
        rw [Prod.mk.injEq] at hw
        obtain ⟨hst', -⟩ := hw
        subst hst'
        simp only [readFile, hval, fsRead_fsWrite_self]
        rw [if_neg hgate, if_neg hsize]

/-- Witness for C8 on a concrete write/read pair. -/
theorem write_then_read_roundtrip_witness :
    readFile exCfg (writeFile exCfg exSt "T" true "b.txt" "abc" false).1 "b.txt"
      = ((writeFile exCfg exSt "T" true "b.txt" "abc" false).1, .ok "abc") :=
  write_then_read_roundtrip exCfg exSt _ "T" true "b.txt" "abc" false (by decide)

/-- C2 (evaluation at the failing input): with the file `a.txt`
present, a backup requested, and the backup copy failing,
`writeFile` still reports success and overwrites the target — the
`catch` wrapped around the backup block swallows the copy failure, so
the mutation proceeds after a failed backup instead of aborting. -/
theorem writeFile_failed_backup_still_writes :
    (writeFile exCfg exSt "T" false "a.txt" "new" true).2 = .ok () ∧
    fsRead (writeFile exCfg exSt "T" false "a.txt" "new" true).1.fs "/ws/a.txt" = some "new" ∧
    createBackup exCfg exSt.fs "T" false "/ws/a.txt" = .error (.ioFailure "copyFile") := by
  decide

/-- C4: first conjunct — in every reachable gate state the counter is
between `0` and `maxConcurrentOperations`, and equals the number of
admitted operations whose `finally` decrement is still pending (so each
admitted operation is decremented exactly once). Remaining conjuncts —
each gated operation, run sequentially to completion, returns the
counter to its entry value on every exit path, success or failure. -/
theorem admission_gate_invariant :
    (∀ (maxOps : Nat) (s : GateState), gateReachable maxOps s →
        0 ≤ s.active ∧ s.active ≤ (maxOps : Int) ∧ s.active = (s.pending : Int)) ∧
    (∀ cfg st filePath, (readFile cfg st filePath).1.active = st.active) ∧
    (∀ cfg st ts copyOk filePath content mkBackup,
        (writeFile cfg st ts copyOk filePath content mkBackup).1.active = st.active) ∧
    (∀ cfg st filePath chunks, (streamWriteFile cfg st filePath chunks).1.active = st.active) ∧
    (∀ cfg st ts copyOk filePath mkBackup,
        (deleteFile cfg st ts copyOk filePath mkBackup).1.active = st.active) ∧
    (∀ cfg st ts copyOk oldPath newPath mkBackup,
        (renameFile cfg st ts copyOk oldPath newPath mkBackup).1.active = st.active) ∧
    (∀ cfg st ts copyOk filePath oldContent newContent,
        (partialWriteFile cfg st ts copyOk filePath oldContent newContent).1.active
          = st.active) := by
  refine ⟨?_, ?_, ?_, ?_, ?_, ?_, ?_⟩
  · intro maxOps s h
    induction h with
    | refl => simp
    | @tail b c _hsteps hstep ih =>
      obtain ⟨ih1, ih2, ih3⟩ := ih
      cases hstep with
      | enter h => refine ⟨?_, ?_, ?_⟩ <;> (dsimp only at *; omega)
      | deny h => exact ⟨ih1, ih2, ih3⟩
      | finish h => refine ⟨?_, ?_, ?_⟩ <;> (dsimp only at *; omega)
  · intro cfg st filePath
    unfold readFile; repeat' split
    all_goals rfl
  · intro cfg st ts copyOk filePath content mkBackup
    unfold writeFile; repeat' split
    all_goals rfl
  · intro cfg st filePath chunks
    unfold streamWriteFile; repeat' split
    all_goals rfl
  · intro cfg st ts copyOk filePath mkBackup
    unfold deleteFile; repeat' split
    all_goals rfl
  · intro cfg st ts copyOk oldPath newPath mkBackup
    unfold renameFile; repeat' split
    all_goals rfl
  · intro cfg st ts copyOk filePath oldContent newContent
    unfold partialWriteFile; repeat' split
    all_goals first
      | rfl
      | (dsimp only; (repeat' split) <;> rfl)

/-- Witness for C4: the state after one admission with `maxOps = 1`
satisfies the invariant. -/
theorem admission_gate_invariant_witness :
    0 ≤ (⟨1, 1⟩ : GateState).active ∧ (⟨1, 1⟩ : GateState).active ≤ ((1 : Nat) : Int) ∧
      (⟨1, 1⟩ : GateState).active = (((⟨1, 1⟩ : GateState).pending : Nat) : Int) :=
  admission_gate_invariant.1 1 ⟨1, 1⟩
    (Relation.ReflTransGen.single (GateStep.enter ⟨0, 0⟩ (by decide)))

/-- The ghost log of enumerated canonical directories stays
duplicate-free through the walker loop, as long as it starts
duplicate-free and covered by the visited set. -/
theorem searchLoop_enumerated_nodup_aux (cfg : Config) (env : WalkEnv) (pattern : String)
    (ignoreCase : Bool) (contextLines : Nat) (recursive : Bool) :
    ∀ (fuel : Nat) (queue visited : List String) (results : List FileResult)
      (enumerated : List String),
      enumerated.Nodup → (∀ x ∈ enumerated, x ∈ visited) →
      (searchLoop cfg env pattern ignoreCase contextLines recursive
          fuel queue visited results enumerated).2.Nodup := by
  intro fuel
  induction fuel with
  | zero =>
    intro queue visited results enumerated h1 _h2
    simpa [searchLoop] using h1
  | succ fuel ih =>
    intro queue visited results enumerated h1 h2
    match queue with
    | [] => simpa [searchLoop] using h1
    | currentDir :: qs =>
      rw [searchLoop]
      cases hrp : env.realpath currentDir with
      | none =>
        dsimp only
        exact ih qs visited results enumerated h1 h2
      | some rp =>
        dsimp only
        by_cases hv : rp ∈ visited
        · rw [if_pos hv]
          exact ih qs visited results enumerated h1 h2
        · rw [if_neg hv]
          cases hrd : env.readdir currentDir with
          | none =>
            dsimp only
            exact ih qs (rp :: visited) results enumerated h1
              (fun x hx => List.mem_cons_of_mem rp (h2 x hx))
          | some entries =>
            dsimp only
            refine ih _ (rp :: visited) _ (enumerated ++ [rp]) ?_ ?_
            · refine List.Nodup.append h1 (List.nodup_singleton rp) ?_
              intro x hx hx'
              rw [List.mem_singleton] at hx'
              exact hv (hx' ▸ h2 x hx)
            · intro x hx
              rcases List.mem_append.mp hx with hx | hx
              · exact List.mem_cons_of_mem rp (h2 x hx)
              · rw [List.mem_singleton] at hx
                exact hx ▸ List.mem_cons_self rp visited

/-- C6: during a single search traversal the walker never enumerates
the entries of the same canonical (symlink-resolved) directory twice:
the ghost log of enumerated canonical paths is duplicate-free for every
starting directory, every filesystem shape (including symlink cycles
modelled by `WalkEnv.realpath`), and every fuel budget — and the loop
is structurally recursive on the `maxDirectories` budget, so it always
terminates. -/
theorem search_traversal_no_revisit (cfg : Config) (env : WalkEnv) (pattern : String)
    (ignoreCase : Bool) (contextLines : Nat) (recursive : Bool) (fuel : Nat)
    (startDir : String) :
    (searchLoop cfg env pattern ignoreCase contextLines recursive
        fuel [startDir] [] [] []).2.Nodup :=
  searchLoop_enumerated_nodup_aux cfg env pattern ignoreCase contextLines recursive
    fuel [startDir] [] [] [] List.nodup_nil (by simp)


/-- Parsing the escaped form of any pattern succeeds and returns the
pattern's own characters as literal atoms: no input is interpreted as
regular-expression syntax. -/
theorem parseAtoms_escapeRegExp (p : List Char) :
    parseAtoms (escapeRegExp p) = some p := by
  induction p with
  | nil => rfl
  | cons c rest ih =>
    rw [escapeRegExp, List.flatMap_cons]
    by_cases hc : c ∈ metaChars
    · rw [if_pos hc]
      rw [show ((['\\', c] : List Char)
            ++ (rest.flatMap fun c => if c ∈ metaChars then ['\\', c] else [c]))
            = '\\' :: c :: escapeRegExp rest from rfl]
      rw [parseAtoms.eq_def]
      dsimp only
      rw [if_pos rfl]
      rw [show parseAtoms (escapeRegExp rest) = some rest from ih]
      rfl
    · rw [if_neg hc]
      have hbs : c ≠ '\\' := fun h => hc (h ▸ (by decide))
      rw [show (([c] : List Char)
            ++ (rest.flatMap fun c => if c ∈ metaChars then ['\\', c] else [c]))
            = c :: escapeRegExp rest from rfl]
      rw [parseAtoms.eq_def]
      dsimp only
      rw [if_neg hbs, if_neg hc, ih]
      rfl

/-- Matching comparison `chEq` is equality of case-folded characters. -/
theorem chEq_foldCase (ignoreCase : Bool) (a b : Char) :
    chEq ignoreCase a b = (foldCase ignoreCase a == foldCase ignoreCase b) := by
  cases ignoreCase <;> simp [chEq, foldCase]

/-- Anchored matching of literal atoms is prefix order on the
case-folded lists. -/
theorem atomsMatchHere_iff (ignoreCase : Bool) :
    ∀ (atoms s : List Char),
      atomsMatchHere ignoreCase atoms s = true ↔
        atoms.map (foldCase ignoreCase) <+: s.map (foldCase ignoreCase) := by
  intro atoms
  induction atoms with
  | nil => intro s; simp [atomsMatchHere]
  | cons a as ih =>
    intro s
    cases s with
    | nil => simp [atomsMatchHere]
    | cons c cs =>
      rw [atomsMatchHere]
      simp only [List.map_cons, List.cons_prefix_cons, Bool.and_eq_true, chEq_foldCase,
        beq_iff_eq, ih]

/-- Unanchored search of literal atoms is substring (infix) order on
the case-folded lists. -/
theorem atomsSearch_iff (ignoreCase : Bool) (atoms s : List Char) :
    atomsSearch ignoreCase atoms s = true ↔
      atoms.map (foldCase ignoreCase) <:+: s.map (foldCase ignoreCase) := by
  constructor
  · intro h
    rw [atomsSearch, List.any_eq_true] at h
    obtain ⟨i, _hi, hmatch⟩ := h
    have hpre := (atomsMatchHere_iff ignoreCase atoms (s.drop i)).mp hmatch
    rw [List.map_drop] at hpre
    exact List.infix_iff_prefix_suffix.mpr
      ⟨(s.map (foldCase ignoreCase)).drop i, hpre, List.drop_suffix i _⟩
  · intro h
    obtain ⟨t, hpre, hsuf⟩ := List.infix_iff_prefix_suffix.mp h
    obtain ⟨pre, hpre2⟩ := hsuf
    have ht : t = (s.map (foldCase ignoreCase)).drop pre.length := by
      rw [← hpre2, List.drop_left]
    rw [atomsSearch, List.any_eq_true]
    refine ⟨pre.length, ?_, ?_⟩
    · rw [List.mem_range]
      have hlen : pre.length + t.length = (s.map (foldCase ignoreCase)).length := by
        have := congrArg List.length hpre2
        simpa using this
      rw [List.length_map] at hlen
      omega
    · rw [atomsMatchHere_iff, List.map_drop, ← ht]
      exact hpre

/-- Reading with default from a mapped list of strings built from character lists. -/
theorem getD_map_mk (L : List (List Char)) (i : Nat) :
    (L.map String.mk).getD i "" = String.mk (L.getD i []) := by
  induction L generalizing i with
  | nil => cases i <;> rfl
  | cons x xs ih => cases i with
    | zero => rfl
    | succ j =>
      rw [List.map_cons, List.getD_cons_succ, List.getD_cons_succ]
      exact ih j

/-- C7: a line of a scanned file is reported by `searchInFile` (with
its 1-based line number) exactly when the pattern occurs in that line
as a literal substring, case-insensitively when `ignoreCase` is set:
every regular-expression metacharacter is escaped, so no pattern input
acts as regex syntax. -/
theorem searchInFile_literal_match_iff (pattern : String) (ignoreCase : Bool)
    (contextLines : Nat) (content : String) (i : Nat) :
    (∃ m ∈ searchInFile pattern ignoreCase contextLines content, m.lineNumber = i + 1) ↔
      (i < (splitLines content.data).length ∧
        LiteralSubstring ignoreCase pattern.data ((splitLines content.data).getD i [])) := by
  have htest : ∀ j, (regexTestEscaped pattern ignoreCase
      (((splitLines content.data).map String.mk).getD j "") = true) ↔
        LiteralSubstring ignoreCase pattern.data ((splitLines content.data).getD j []) := by
    intro j
    rw [getD_map_mk, regexTestEscaped, parseAtoms_escapeRegExp]
    exact atomsSearch_iff ignoreCase pattern.data ((splitLines content.data).getD j [])
  constructor
  · rintro ⟨m, hm, hln⟩
    dsimp only [searchInFile] at hm
    rw [List.mem_filterMap] at hm
    obtain ⟨j, hj, hf⟩ := hm
    rw [List.mem_range, List.length_map] at hj
    split at hf
    case isTrue ht =>
      have hmval : mkSearchMatch ((splitLines content.data).map String.mk) contextLines j = m :=
        Option.some.inj hf
      have hjln : m.lineNumber = j + 1 := by rw [← hmval]; rfl
      have hij : j = i := by rw [hjln] at hln; omega
      subst hij
      exact ⟨hj, (htest j).mp ht⟩
    case isFalse => exact absurd hf (by simp)
  · rintro ⟨hi, hocc⟩
    refine ⟨mkSearchMatch ((splitLines content.data).map String.mk) contextLines i, ?_, rfl⟩
    dsimp only [searchInFile]
    rw [List.mem_filterMap]
    refine ⟨i, ?_, ?_⟩
    · rw [List.mem_range, List.length_map]; omega
    · rw [if_pos ((htest i).mpr hocc)]

/-- Splitting never yields the empty list of pieces. -/
theorem splitOnCh_ne_nil (sep : Char) (l : List Char) : splitOnCh sep l ≠ [] := by
  cases l with
  | nil => simp [splitOnCh]
  | cons c rest =>
    rw [splitOnCh]
    split
    · simp
    · split <;> simp

/-- Splitting distributes over an append at a separator occurrence. -/
theorem splitOnCh_append (sep : Char) (a b : List Char) :
    splitOnCh sep (a ++ sep :: b) = splitOnCh sep a ++ splitOnCh sep b := by
  induction a with
  | nil =>
    rw [List.nil_append]
    rw [show splitOnCh sep (sep :: b) = [] :: splitOnCh sep b from by
      rw [splitOnCh, if_pos rfl]]
    rfl
  | cons c a' ih =>
    rw [List.cons_append]
    by_cases hc : c = sep
    · rw [splitOnCh, if_pos hc, ih]
      conv_rhs => rw [splitOnCh, if_pos hc]
      rfl
    · rw [splitOnCh, if_neg hc, ih]
      conv_rhs => rw [splitOnCh, if_neg hc]
      cases hsp : splitOnCh sep a' with
      | nil => exact absurd hsp (splitOnCh_ne_nil sep a')
      | cons s ss => rfl

/-- A separator-free list splits into itself alone. -/
theorem splitOnCh_no_sep (sep : Char) (l : List Char) (h : sep ∉ l) :
    splitOnCh sep l = [l] := by
  induction l with
  | nil => rfl
  | cons c rest ih =>
    rw [splitOnCh, if_neg (fun hc => h (List.mem_cons.mpr (Or.inl hc.symm)))]
    rw [ih (fun hm => h (List.mem_cons_of_mem c hm))]

/-- The last element with default is a member of a nonempty list. -/
theorem getLastD_mem {α : Type} : ∀ (l : List α) (d : α), l ≠ [] → l.getLastD d ∈ l
  | [a], _, _ => by simp [List.getLastD]
  | a :: b :: bs, d, _ => by
    rw [show (a :: b :: bs).getLastD d = (b :: bs).getLastD a from rfl]
    exact List.mem_cons_of_mem a (getLastD_mem (b :: bs) a (by simp))

/-- A basename never contains the separator. -/
theorem sep_not_mem_basenameCh (p : List Char) : '/' ∉ basenameCh p := by
  rw [basenameCh]
  by_cases hf : (splitSegs p).filter (fun s => s ≠ []) = []
  · rw [hf]; simp
  · have hmem := getLastD_mem _ ([] : List Char) hf
    have hmem2 := List.mem_of_mem_filter hmem
    rw [splitSegs] at hmem2
    exact splitOnCh_sep_not_mem '/' p _ hmem2

/-- Basename of a path ending in a separator-free, nonempty component. -/
theorem basenameCh_append (x tl : List Char) (h1 : tl ≠ []) (h2 : '/' ∉ tl) :
    basenameCh (x ++ '/' :: tl) = tl := by
  rw [basenameCh, splitSegs, splitOnCh_append, splitOnCh_no_sep '/' tl h2]
  rw [List.filter_append]
  rw [show List.filter (fun s => decide (s ≠ [])) [tl] = [tl] from by simp [h1]]
  rw [show splitOnCh '/' x = splitSegs x from rfl]
  simp [List.getLastD_concat]

/-- The backup destination is never the validated target path itself
(for a separator-free timestamp, as the code produces). -/
theorem backupPath_ne_target (cfg : Config) (ts sp : String) (hts : '/' ∉ ts.data) :
    backupPath cfg ts sp ≠ sp := by
  intro heq
  have hdata : (backupPath cfg ts sp).data = sp.data := congrArg String.data heq
  rw [backupPath] at hdata
  have hX : ((cfg.root.data ++ ("/.backups/").data ++ basenameCh sp.data
        ++ ('.' :: ts.data) ++ (".backup").data) : List Char)
      = (cfg.root.data ++ '/' :: (".backups").data)
        ++ '/' :: (basenameCh sp.data ++ '.' :: ts.data ++ (".backup").data) := by
    rw [show ("/.backups/").data = '/' :: (".backups").data ++ ['/'] from rfl]
    simp
  rw [show (String.mk (cfg.root.data ++ ("/.backups/").data ++ basenameCh sp.data
        ++ ('.' :: ts.data) ++ (".backup").data)).data
      = cfg.root.data ++ ("/.backups/").data ++ basenameCh sp.data
        ++ ('.' :: ts.data) ++ (".backup").data from rfl, hX] at hdata
  have hT : '/' ∉ (basenameCh sp.data ++ '.' :: ts.data ++ (".backup").data : List Char) := by
    intro hm
    rcases List.mem_append.mp hm with hm | hm
    · rcases List.mem_append.mp hm with hm | hm
      · exact sep_not_mem_basenameCh sp.data hm
      · rcases List.mem_cons.mp hm with hm | hm
        · exact absurd hm (by decide)
        · exact hts hm
    · exact absurd hm (by decide)
  have hbn : basenameCh sp.data
      = basenameCh sp.data ++ '.' :: ts.data ++ (".backup").data := by
    conv_lhs => rw [← hdata]
    rw [basenameCh_append _ _ (by simp) hT]
  have := congrArg List.length hbn
  simp at this

/-- A failed suffix scan means no occurrence at any position. -/
theorem idxOfAux_eq_none_iff (t : List Char) :
    ∀ (s : List Char) (i0 : Nat),
      idxOfAux t s i0 = none ↔ ∀ d, d ≤ s.length → ¬ t <+: s.drop d := by
  intro s
  induction s with
  | nil =>
    intro i0
    rw [idxOfAux]
    constructor
    · intro h d hd hpre
      rw [List.drop_nil] at hpre
      rw [List.prefix_nil] at hpre
      rw [if_pos hpre] at h
      exact Option.noConfusion h
    · intro h
      rw [if_neg ?_]
      intro ht
      exact (h 0 (by simp)) (by rw [ht]; exact List.nil_prefix)
  | cons c cs ih =>
    intro i0
    rw [idxOfAux]
    by_cases hp : t.isPrefixOf (c :: cs) = true
    · rw [if_pos hp]
      constructor
      · intro h; exact Option.noConfusion h
      · intro h
        exact absurd (List.isPrefixOf_iff_prefix.mp hp) (by simpa using h 0 (by simp))
    · rw [if_neg hp]
      rw [ih (i0 + 1)]
      constructor
      · intro h d hd
        match d with
        | 0 =>
          intro hpre
          exact hp (List.isPrefixOf_iff_prefix.mpr (by simpa using hpre))
        | e + 1 =>
          have := h e (by simpa using hd)
          simpa using this
      · intro h d hd
        have := h (d + 1) (by simpa using hd)
        simpa using this

/-- A successful suffix scan returns the least matching position at or
after the scan start. -/
theorem idxOfAux_eq_some (t : List Char) :
    ∀ (s : List Char) (i0 j : Nat), idxOfAux t s i0 = some j →
      i0 ≤ j ∧ j - i0 ≤ s.length ∧ (t <+: s.drop (j - i0)) ∧
        ∀ d, d < j - i0 → ¬ t <+: s.drop d := by
  intro s
  induction s with
  | nil =>
    intro i0 j h
    rw [idxOfAux] at h
    split at h
    case isTrue ht =>
      have hj := Option.some.inj h
      subst hj
      refine ⟨le_rfl, by simp, ?_, by omega⟩
      rw [Nat.sub_self, ht]
      exact List.nil_prefix
    case isFalse => exact Option.noConfusion h
  | cons c cs ih =>
    intro i0 j h
    rw [idxOfAux] at h
    split at h
    case isTrue hp =>
      have hj := Option.some.inj h
      subst hj
      refine ⟨le_rfl, by simp, ?_, by omega⟩
      rw [Nat.sub_self]
      exact List.isPrefixOf_iff_prefix.mp hp
    case isFalse hp =>
      obtain ⟨h1, h2, h3, h4⟩ := ih (i0 + 1) j h
      refine ⟨by omega, by simp; omega, ?_, ?_⟩
      · rw [show j - i0 = (j - (i0 + 1)) + 1 from by omega]
        simpa using h3
      · intro d hd
        match d with
        | 0 =>
          intro hpre
          exact hp (List.isPrefixOf_iff_prefix.mpr (by simpa using hpre))
        | e + 1 =>
          have := h4 e (by omega)
          simpa using this

/-- Zero occurrences exactly when no position matches. -/
theorem countOccurrences_eq_zero_iff (s t : List Char) :
    countOccurrences s t = 0 ↔ ∀ d, d ≤ s.length → ¬ t <+: s.drop d := by
  rw [countOccurrences, List.length_eq_zero, List.filter_eq_nil_iff]
  constructor
  · intro h d hd hpre
    exact h d (List.mem_range.mpr (by omega)) (List.isPrefixOf_iff_prefix.mpr hpre)
  · intro h d hd hpre
    rw [List.mem_range] at hd
    exact h d (by omega) (List.isPrefixOf_iff_prefix.mp hpre)

/-- With exactly one occurrence, any two matching positions agree. -/
theorem countOccurrences_eq_one_unique (s t : List Char) (h : countOccurrences s t = 1)
    (d1 d2 : Nat) (h1 : d1 ≤ s.length) (h2 : d2 ≤ s.length)
    (hp1 : t <+: s.drop d1) (hp2 : t <+: s.drop d2) : d1 = d2 := by
  rw [countOccurrences] at h
  obtain ⟨a, ha⟩ := List.length_eq_one.mp h
  have hm1 : d1 ∈ (List.range (s.length + 1)).filter (fun i => t.isPrefixOf (s.drop i)) := by
    rw [List.mem_filter, List.mem_range]
    exact ⟨by omega, List.isPrefixOf_iff_prefix.mpr hp1⟩
  have hm2 : d2 ∈ (List.range (s.length + 1)).filter (fun i => t.isPrefixOf (s.drop i)) := by
    rw [List.mem_filter, List.mem_range]
    exact ⟨by omega, List.isPrefixOf_iff_prefix.mpr hp2⟩
  rw [ha, List.mem_singleton] at hm1 hm2
  rw [hm1, hm2]

/-- Two or more occurrences give two ordered matching positions. -/
theorem countOccurrences_ge_two (s t : List Char) (h : 2 ≤ countOccurrences s t) :
    ∃ d1 d2, d1 < d2 ∧ d2 ≤ s.length ∧ (t <+: s.drop d1) ∧ (t <+: s.drop d2) := by
  rw [countOccurrences] at h
  have hpw : ((List.range (s.length + 1)).filter
      (fun i => t.isPrefixOf (s.drop i))).Pairwise (· < ·) :=
    (List.pairwise_lt_range _).sublist (List.filter_sublist _)
  obtain ⟨a, b, rest, hFe⟩ : ∃ a b rest,
      (List.range (s.length + 1)).filter (fun i => t.isPrefixOf (s.drop i))
        = a :: b :: rest := by
    match hm : (List.range (s.length + 1)).filter (fun i => t.isPrefixOf (s.drop i)), h with
    | a :: b :: rest, _ => exact ⟨a, b, rest, rfl⟩
  rw [hFe] at hpw
  have hab : a < b := (List.pairwise_cons.mp hpw).1 b (List.mem_cons_self b rest)
  have hma : a ∈ (List.range (s.length + 1)).filter (fun i => t.isPrefixOf (s.drop i)) := by
    rw [hFe]; exact List.mem_cons_self a (b :: rest)
  have hmb : b ∈ (List.range (s.length + 1)).filter (fun i => t.isPrefixOf (s.drop i)) := by
    rw [hFe]; exact List.mem_cons_of_mem a (List.mem_cons_self b rest)
  rw [List.mem_filter, List.mem_range] at hma hmb
  exact ⟨a, b, hab, by omega, List.isPrefixOf_iff_prefix.mp hma.2,
    List.isPrefixOf_iff_prefix.mp hmb.2⟩

/-- Reading a different path skips the freshly written entry. -/
theorem fsRead_fsWrite_ne (fs : FS) (p q c : String) (h : q ≠ p) :
    fsRead (fsWrite fs p c) q = fsRead fs q := by
  rw [fsRead, fsWrite, List.find?]
  rw [show ((p, c).1 == q) = false from beq_eq_false_iff_ne.mpr (fun hh => h hh.symm)]
  rfl

/-- C3 (amended): with the path valid, a slot free, and the file
present with content `currentContent` — zero occurrences of the old
fragment fail with the no-match error; two or more (overlapping
occurrences counted) fail with the ambiguous-match error; a nonempty
fragment occurring exactly once, with the replacement within the size
limit and the backup copy succeeding, succeeds: the file then holds the
original with exactly that occurrence replaced, and the backup file
holds the pre-mutation bytes. -/
theorem partialWriteFile_match_cases
    (cfg : Config) (st : SFMState) (ts : String) (copyOk : Bool)
    (filePath oldContent newContent : String) (safePath currentContent : String)
    (hgate : st.active < cfg.maxConcurrentOperations)
    (hvalid : validatePath cfg filePath true = .ok safePath)
    (hread : fsRead st.fs safePath = some currentContent) :
    (countOccurrences currentContent.data oldContent.data = 0 →
      partialWriteFile cfg st ts copyOk filePath oldContent newContent
        = (st, .error .noMatch)) ∧
    (2 ≤ countOccurrences currentContent.data oldContent.data →
      partialWriteFile cfg st ts copyOk filePath oldContent newContent
        = (st, .error .ambiguousMatch)) ∧
    (∀ i, countOccurrences currentContent.data oldContent.data = 1 →
      oldContent ≠ "" →
      oldContent.data <+: currentContent.data.drop i →
      utf8Len (String.mk (replaceRange currentContent.data i oldContent.data.length
        newContent.data)) ≤ cfg.maxFileSize →
      copyOk = true →
      '/' ∉ ts.data →
      partialWriteFile cfg st ts copyOk filePath oldContent newContent
          = ({ st with fs := (fsWrite
                (fsWrite st.fs (backupPath cfg ts safePath) currentContent)
                safePath (String.mk (replaceRange currentContent.data i
                  oldContent.data.length newContent.data))) }, .ok ()) ∧
        fsRead (partialWriteFile cfg st ts copyOk filePath oldContent newContent).1.fs
            safePath
          = some (String.mk (replaceRange currentContent.data i oldContent.data.length
              newContent.data)) ∧
        fsRead (partialWriteFile cfg st ts copyOk filePath oldContent newContent).1.fs
            (backupPath cfg ts safePath)
          = some currentContent) := by
  refine ⟨?_, ?_, ?_⟩
  · intro hcnt
    have hnone : jsIndexOf currentContent.data oldContent.data = none := by
      rw [jsIndexOf, idxOfAux_eq_none_iff]
      exact (countOccurrences_eq_zero_iff _ _).mp hcnt
    unfold partialWriteFile
    rw [if_neg (by omega), hvalid]
    dsimp only
    rw [hread]
    dsimp only
    rw [hnone]
  · intro hcnt
    obtain ⟨d1, d2, hlt, hd2, hp1, hp2⟩ := countOccurrences_ge_two _ _ hcnt
    have hnn : jsIndexOf currentContent.data oldContent.data ≠ none := by
      rw [jsIndexOf]
      intro hcontra
      rw [idxOfAux_eq_none_iff] at hcontra
      exact hcontra d1 (by omega) hp1
    obtain ⟨i, hi⟩ := Option.ne_none_iff_exists'.mp hnn
    obtain ⟨-, hile, hpi, hmin⟩ := idxOfAux_eq_some _ _ _ _ hi
    rw [Nat.sub_zero] at hile hpi
    have hd2i : i < d2 := by
      by_contra hle
      push_neg at hle
      exact hmin d1 (by omega) hp1
    have hsec : jsIndexOfFrom currentContent.data oldContent.data (i + 1) ≠ none := by
      rw [jsIndexOfFrom]
      intro hcontra
      rw [idxOfAux_eq_none_iff] at hcontra
      refine hcontra (d2 - min (i + 1) currentContent.data.length)
        (by rw [List.length_drop]; omega) ?_
      rw [List.drop_drop]
      rw [show min (i + 1) currentContent.data.length
          + (d2 - min (i + 1) currentContent.data.length) = d2 from by omega]
      exact hp2
    obtain ⟨j2, hj2⟩ := Option.ne_none_iff_exists'.mp hsec
    unfold partialWriteFile
    rw [if_neg (by omega), hvalid]
    dsimp only
    rw [hread]
    dsimp only
    rw [show jsIndexOf currentContent.data oldContent.data
        = some i from hi]
    dsimp only
    rw [hj2]
  · intro i hcnt hne hpre hsize hcopy hts
    have hne' : oldContent.data ≠ [] := by
      intro h
      apply hne
      rw [show oldContent = String.mk oldContent.data from rfl, h]
    have hilen : i ≤ currentContent.data.length := by
      by_contra h
      push_neg at h
      rw [List.drop_eq_nil_of_le (by omega), List.prefix_nil] at hpre
      exact hne' hpre
    have hnn : jsIndexOf currentContent.data oldContent.data ≠ none := by
      rw [jsIndexOf]
      intro hcontra
      rw [idxOfAux_eq_none_iff] at hcontra
      exact hcontra i hilen hpre
    obtain ⟨j, hj⟩ := Option.ne_none_iff_exists'.mp hnn
    obtain ⟨-, hjle, hpj, _hmin⟩ := idxOfAux_eq_some _ _ _ _ hj
    rw [Nat.sub_zero] at hjle hpj
    have hji : j = i := countOccurrences_eq_one_unique _ _ hcnt j i hjle hilen hpj hpre
    subst hji
    have hlt : j < currentContent.data.length := by
      rcases Nat.lt_or_ge j currentContent.data.length with h | h
      · exact h
      · exfalso
        rw [List.drop_eq_nil_of_le h, List.prefix_nil] at hpre
        exact hne' hpre
    have hsec : jsIndexOfFrom currentContent.data oldContent.data (j + 1) = none := by
      rw [jsIndexOfFrom, idxOfAux_eq_none_iff]
      intro e he hpe
      rw [show min (j + 1) currentContent.data.length = j + 1 from by omega] at he hpe
      rw [List.drop_drop] at hpe
      rw [List.length_drop] at he
      have : j + 1 + e = j :=
        countOccurrences_eq_one_unique _ _ hcnt (j + 1 + e) j (by omega) hilen hpe hpre
      omega
    have hbackup : createBackup cfg st.fs ts copyOk safePath
        = .ok (fsWrite st.fs (backupPath cfg ts safePath) currentContent) := by
      subst hcopy
      rw [createBackup]
      rw [if_neg (by simp)]
      rw [hread]
    have heval : partialWriteFile cfg st ts copyOk filePath oldContent newContent
        = ({ st with fs := (fsWrite
              (fsWrite st.fs (backupPath cfg ts safePath) currentContent)
              safePath (String.mk (replaceRange currentContent.data j
                oldContent.data.length newContent.data))) }, .ok ()) := by
      unfold partialWriteFile
      rw [if_neg (by omega), hvalid]
      dsimp only
      rw [hread]
      dsimp only
      rw [show jsIndexOf currentContent.data oldContent.data = some j from hj]
      dsimp only
      rw [hsec]
      dsimp only
      rw [if_neg (by omega), hbackup]
    refine ⟨heval, ?_, ?_⟩
    · rw [heval]
      exact fsRead_fsWrite_self _ _ _
    · rw [heval]
      dsimp only
      rw [fsRead_fsWrite_ne _ _ _ _ (backupPath_ne_target cfg ts safePath hts)]
      exact fsRead_fsWrite_self _ _ _

/-- C3 counterexample to the claim as stated: the empty fragment occurs
exactly once in the empty file (at position 0, the only position), yet
`partialWriteFile` fails with the ambiguous-match error instead of
succeeding — the second `indexOf` starts from index 1, which JavaScript
clamps back into the string, so the single occurrence is seen twice. -/
theorem partialWriteFile_empty_fragment_ambiguous :
    countOccurrences ("" : String).data ("" : String).data = 1 ∧
    partialWriteFile exCfg { fs := [("/ws/a.txt", "")], active := 0 } "T" true
        "a.txt" "" "x"
      = ({ fs := [("/ws/a.txt", "")], active := 0 }, .error .ambiguousMatch) := by
  decide

/-- Witness for C3 (amended) at a concrete unique-occurrence input. -/
theorem partialWriteFile_match_cases_witness :
    fsRead (partialWriteFile exCfg exSt "T" true "a.txt" "world" "there").1.fs "/ws/a.txt"
        = some "hello there" ∧
    fsRead (partialWriteFile exCfg exSt "T" true "a.txt" "world" "there").1.fs
        (backupPath exCfg "T" "/ws/a.txt") = some "hello world" := by
  have h := (partialWriteFile_match_cases exCfg exSt "T" true "a.txt" "world" "there"
    "/ws/a.txt" "hello world" (by decide) (by decide) (by decide)).2.2 6
    (by decide) (by decide) (by decide) (by decide) rfl (by decide)
  refine ⟨?_, h.2.2⟩
  rw [h.2.1]
  rfl

/-- Normalisation is the identity on segments free of empties, `.`
and `..`. -/
theorem normSegs_clean (b : Bool) :
    ∀ (segs acc : List (List Char)),
      (∀ x ∈ segs, x ≠ [] ∧ x ≠ ['.'] ∧ x ≠ ['.', '.']) →
      normSegs b segs acc = acc.reverse ++ segs := by
  intro segs
  induction segs with
  | nil =>
    intro acc _h
    rw [normSegs]
    simp
  | cons s rest ih =>
    intro acc h
    obtain ⟨h1, h2, h3⟩ := h s (List.mem_cons_self s rest)
    rw [normSegs.eq_def]
    dsimp only
    rw [if_neg (not_or.mpr ⟨h1, h2⟩), if_neg h3]
    rw [ih (s :: acc) (fun y hy => h y (List.mem_cons_of_mem s hy))]
    simp

/-- Dropping the initial empty segment of an absolute path. -/
theorem normSegs_nil_seg (b : Bool) (rest acc : List (List Char)) :
    normSegs b ([] :: rest) acc = normSegs b rest acc := by
  rw [normSegs.eq_def]
  dsimp only
  rw [if_pos (Or.inl rfl)]

/-- Prepending a head character to the first segment of a join. -/
theorem joinSegs_cons_head (c : Char) (s : List Char) (ss : List (List Char)) :
    joinSegs ((c :: s) :: ss) = c :: joinSegs (s :: ss) := by
  cases ss <;> rfl

/-- Joining the pieces of a split restores the original list. -/
theorem joinSegs_splitOnCh (l : List Char) : joinSegs (splitOnCh '/' l) = l := by
  induction l with
  | nil => rfl
  | cons c rest ih =>
    rw [splitOnCh]
    by_cases hc : c = '/'
    · rw [if_pos hc, hc]
      cases hsp : splitOnCh '/' rest with
      | nil => exact absurd hsp (splitOnCh_ne_nil '/' rest)
      | cons s ss =>
        rw [show joinSegs ([] :: s :: ss) = '/' :: joinSegs (s :: ss) from rfl]
        rw [show joinSegs (s :: ss) = rest from hsp ▸ ih]
    · rw [if_neg hc]
      cases hsp : splitOnCh '/' rest with
      | nil => exact absurd hsp (splitOnCh_ne_nil '/' rest)
      | cons s ss =>
        rw [joinSegs_cons_head]
        rw [show joinSegs (s :: ss) = rest from hsp ▸ ih]

/-- Appending one further segment to a nonempty join. -/
theorem joinSegs_append_singleton :
    ∀ (segs : List (List Char)) (b : List Char), segs ≠ [] →
      joinSegs (segs ++ [b]) = joinSegs segs ++ '/' :: b
  | [], _, h => absurd rfl h
  | [s], b, _ => rfl
  | s :: t :: ts, b, _ => by
    have h1 : (s :: t :: ts) ++ [b] = s :: ((t :: ts) ++ [b]) := rfl
    rw [h1]
    have h2 : joinSegs (s :: ((t :: ts) ++ [b]))
        = s ++ '/' :: joinSegs ((t :: ts) ++ [b]) := by
      rw [show (t :: ts) ++ [b] = t :: (ts ++ [b]) from rfl]
      rfl
    rw [h2, joinSegs_append_singleton (t :: ts) b (by simp)]
    rw [show joinSegs (s :: t :: ts) = s ++ '/' :: joinSegs (t :: ts) from rfl]
    simp

/-- Stripping a common leading run leaves only the appended tail. -/
theorem dropCommon_self_append (l m : List (List Char)) :
    dropCommon l (l ++ m) = ([], m) := by
  induction l with
  | nil =>
    cases m <;> rfl
  | cons a as ih =>
    rw [show (a :: as) ++ m = a :: (as ++ m) from rfl]
    rw [dropCommon, if_pos rfl]
    exact ih

/-- C9: under the default configuration, for any well-formed workspace
root, the file named exactly `.env` passes path validation as a file
operation: the `.env.` blacklist entry matches only file names starting
with `.env.` (so not `.env` itself), no other default entry matches,
and its extension is the empty string, an explicit member of the
default allowed-extension set. -/
theorem validatePath_dotenv_ok (root : String) (hroot : isNormalRoot root = true) :
    validatePath (defaultConfig root) ".env" true = .ok (root ++ "/.env") := by
  rw [isNormalRoot, Bool.and_eq_true, Bool.and_eq_true] at hroot
  obtain ⟨⟨hhead, htail⟩, hall⟩ := hroot
  obtain ⟨c, rest, hdata⟩ : ∃ c rest, root.data = c :: rest := by
    cases hd : root.data with
    | nil => rw [hd] at hhead; exact absurd hhead (by decide)
    | cons c rest => exact ⟨c, rest, rfl⟩
  have hc : c = '/' := by
    rw [hdata] at hhead
    simpa using hhead
  subst hc
  rw [hdata] at htail hall
  simp only [List.tail_cons] at htail hall
  have hclean : ∀ x ∈ splitOnCh '/' rest, x ≠ [] ∧ x ≠ ['.'] ∧ x ≠ ['.', '.'] := by
    intro x hx
    have hx2 := List.all_eq_true.mp hall x hx
    simp only [Bool.and_eq_true, bne_iff_ne] at hx2
    exact ⟨hx2.1.1, hx2.1.2, hx2.2⟩
  have hclean2 : ∀ x ∈ splitOnCh '/' rest ++ [(".env").data],
      x ≠ [] ∧ x ≠ ['.'] ∧ x ≠ ['.', '.'] := by
    intro x hx
    rcases List.mem_append.mp hx with hx | hx
    · exact hclean x hx
    · rw [List.mem_singleton] at hx
      subst hx
      exact ⟨by decide, by decide, by decide⟩
  have hres : resolveCh root.data (normalizeCh (".env").data)
      = root.data ++ '/' :: (".env").data := by
    rw [show normalizeCh (".env").data = (".env").data from by decide]
    rw [resolveCh]
    dsimp only
    rw [if_neg (by decide)]
    rw [hdata]
    rw [splitSegs, splitOnCh_append]
    rw [show splitOnCh '/' ('/' :: rest) = [] :: splitOnCh '/' rest from by
      rw [splitOnCh, if_pos rfl]]
    rw [show splitOnCh '/' (".env").data = [(".env").data] from rfl]
    rw [show (([] :: splitOnCh '/' rest) ++ [(".env").data])
        = [] :: (splitOnCh '/' rest ++ [(".env").data]) from rfl]
    rw [normSegs_nil_seg]
    rw [normSegs_clean false _ [] hclean2]
    rw [List.reverse_nil, List.nil_append]
    rw [joinSegs_append_singleton _ _ (splitOnCh_ne_nil '/' rest)]
    rw [joinSegs_splitOnCh]
    rfl
  have hstart : chStartsWith (root.data ++ '/' :: (".env").data) (root.data ++ ['/']) = true := by
    rw [chStartsWith, List.isPrefixOf_iff_prefix]
    exact ⟨(".env").data, by simp⟩
  have hrel : relativeCh root.data (root.data ++ '/' :: (".env").data) = (".env").data := by
    rw [relativeCh]
    dsimp only
    rw [hdata]
    simp only [splitSegs]
    rw [splitOnCh_append]
    rw [show splitOnCh '/' ('/' :: rest) = [] :: splitOnCh '/' rest from by
      rw [splitOnCh, if_pos rfl]]
    rw [show splitOnCh '/' (".env").data = [(".env").data] from rfl]
    have hfS : (splitOnCh '/' rest).filter (fun s => s ≠ []) = splitOnCh '/' rest :=
      List.filter_eq_self.mpr (fun a ha => by simpa using (hclean a ha).1)
    rw [List.filter_append]
    rw [List.filter_cons, if_neg (by simp)]
    rw [hfS]
    rw [show List.filter (fun s => decide (s ≠ [])) [(".env").data] = [(".env").data] from by decide]
    rw [dropCommon_self_append]
    rfl
  have hbl : isPathBlacklisted (defaultConfig root) (String.mk (".env").data) = false := by
    rw [show String.mk (".env").data = ".env" from rfl]
    rw [isPathBlacklisted]
    rw [show (defaultConfig root).blacklistedPaths = defaultBlacklist from rfl]
    decide
  have hbase : basenameCh (root.data ++ '/' :: (".env").data) = (".env").data :=
    basenameCh_append _ _ (by decide) (by decide)
  have hext : isFileExtensionAllowed (defaultConfig root) (String.mk (".env").data) = true := by
    rw [show String.mk (".env").data = ".env" from rfl]
    rw [isFileExtensionAllowed]
    rw [show (defaultConfig root).allowedExtensions = defaultExtensions from rfl]
    decide
  dsimp only [validatePath]
  rw [show (defaultConfig root).root = root from rfl]
  rw [hres, hstart]
  simp only [Bool.true_or, Bool.not_true]
  rw [if_neg (by simp)]
  rw [hrel, hbl]
  simp only [Bool.and_false]
  rw [if_neg (by simp)]
  rw [hbase, hext]
  simp only [Bool.not_true, Bool.and_false]
  rw [if_neg (by simp)]
  have hfin : String.mk (root.data ++ '/' :: (".env").data) = root ++ "/.env" := by
    have h2 : (root ++ "/.env").data = root.data ++ '/' :: (".env").data := by
      rw [String.data_append]
    rw [← h2]
  rw [hfin]

/-- Witness for C9 at the concrete root `/workspace`. -/
theorem validatePath_dotenv_ok_witness :
    validatePath (defaultConfig "/workspace") ".env" true = .ok ("/workspace" ++ "/.env") :=
  validatePath_dotenv_ok "/workspace" (by decide)

end McpFs
